import Mathlib

/-!
Verification of the median calculator and favourites list of this repository.

The Python source is embedded shallowly:
* `insertion_sort` (median.py, lines 20-27): the in-place insertion sort.  The
  inner `while j >= 0 and numbers[j] > key` loop is modelled by `shiftLoop`,
  structurally recursive on the counter `c = j + 1` (so `c = 0` is the exit
  state `j = -1`); an `Int`-indexed small-step semantics `runInner` of the very
  same loop is given as well and proved equivalent.
* `sortAndFindMedian` (median.py, lines 34-43): modelled twice, as a pure
  function and as `sortAndFindMedianRef` over an explicit store of list
  references, which makes the statement "the caller's list is not mutated"
  expressible (the source copies the input with `arr = list(numbers)` before
  sorting in place).
* `parse_numbers` (median.py, lines 46-55): Python strings are `List Char`;
  `float` is an abstract parameter `toFloat : List Char → Option ℚ` since the
  claims concern the splitting / error structure, not numeral syntax.
* `Favourites` (weather_cli.py, lines 127-150): capacity-bounded list of city
  names with `add` / `remove`.
Numbers are modelled by `ℚ`: the source relies only on ordering, addition and
halving of its inputs, which IEEE doubles share with the rationals on the
values appearing in the specification's examples.
-/

deriving instance DecidableEq for Except

namespace Comcast

/-- The inner `while j >= 0 and numbers[j] > key` loop of `insertion_sort`
(median.py lines 24-26), recursing on `c = j + 1`; returns the final list and
the write position `j + 1` used by line 27. -/
def shiftLoop (numbers : List ℚ) (key : ℚ) : Nat → List ℚ × Nat
  | 0 => (numbers, 0)
  | j + 1 =>
    if numbers.getD j 0 > key then
      shiftLoop (numbers.set (j + 1) (numbers.getD j 0)) key j
    else
      (numbers, j + 1)

/-- One iteration of the outer `for i in range(1, len(numbers))` loop of
`insertion_sort` (median.py lines 21-27): read the key, run the shifting loop,
write the key into the gap. -/
def insertStep (numbers : List ℚ) (i : Nat) : List ℚ :=
  let key := numbers.getD i 0
  let p := shiftLoop numbers key i
  p.1.set p.2 key

/-- The outer loop of `insertion_sort`, iterating `insertStep` for
`i = i₀, i₀+1, ...` for `fuel` iterations. -/
def sortAux (numbers : List ℚ) (i : Nat) : Nat → List ℚ
  | 0 => numbers
  | fuel + 1 => sortAux (insertStep numbers i) (i + 1) fuel

/-- `insertion_sort` (median.py lines 20-27): `for i in range(1, len(numbers))`
performs exactly `len - 1` iterations starting at `i = 1`. -/
def insertion_sort (numbers : List ℚ) : List ℚ :=
  sortAux numbers 1 (numbers.length - 1)

/-- `sort` (median.py lines 30-31) is an alias for `insertion_sort`. -/
def sort (numbers : List ℚ) : List ℚ :=
  insertion_sort numbers

/-- `sortAndFindMedian` (median.py lines 34-43), pure value-level version:
empty input raises `ValueError("Input list is empty")`, otherwise the median
is read off a sorted copy. -/
def sortAndFindMedian (numbers : List ℚ) : Except String ℚ :=
  if numbers.isEmpty then
    Except.error "Input list is empty"
  else
    let arr := sort numbers
    let n := arr.length
    if n % 2 = 0 then
      Except.ok ((arr.getD (n / 2 - 1) 0 + arr.getD (n / 2) 0) / 2)
    else
      Except.ok (arr.getD (n / 2) 0)

/-- A store of Python list objects: references are indices into `lists`. -/
structure Store where
  lists : List (List ℚ)
deriving DecidableEq

/-- Dereference `r` (a missing reference reads as `[]`, which no program below
ever creates or relies on). -/
def Store.read (σ : Store) (r : Nat) : List ℚ :=
  σ.lists.getD r []

/-- Overwrite the contents of the list object `r`. -/
def Store.write (σ : Store) (r : Nat) (v : List ℚ) : Store :=
  ⟨σ.lists.set r v⟩

/-- `list(numbers)`: allocate a fresh list object holding a copy of `v`. -/
def Store.alloc (σ : Store) (v : List ℚ) : Store × Nat :=
  (⟨σ.lists ++ [v]⟩, σ.lists.length)

/-- `sort(arr)` as an in-place operation on the list object `r`. -/
def sortRef (σ : Store) (r : Nat) : Store :=
  σ.write r (insertion_sort (σ.read r))

/-- `sortAndFindMedian` (median.py lines 34-43) over the store: the empty check
comes first (line 35, before any copy or sort), then `arr = list(numbers)`
allocates a fresh object (line 37), `sort(arr)` mutates only that object
(line 38), and the median is read from it (lines 39-43). -/
def sortAndFindMedianRef (σ : Store) (r : Nat) : Except String ℚ × Store :=
  let numbers := σ.read r
  if numbers.isEmpty then
    (Except.error "Input list is empty", σ)
  else
    let p := σ.alloc numbers
    let σ2 := sortRef p.1 p.2
    let arr := σ2.read p.2
    let n := arr.length
    if n % 2 = 0 then
      (Except.ok ((arr.getD (n / 2 - 1) 0 + arr.getD (n / 2) 0) / 2), σ2)
    else
      (Except.ok (arr.getD (n / 2) 0), σ2)

/-- Python `str.split()` helper: cut at every whitespace character, keeping
empty chunks (they are filtered away afterwards, as `split()` discards them). -/
def splitAux (acc : List Char) : List Char → List (List Char)
  | [] => [acc.reverse]
  | c :: rest =>
    if c.isWhitespace then
      acc.reverse :: splitAux [] rest
    else
      splitAux (c :: acc) rest

/-- `token.replace(",", " ").split()` applied to every argument and
concatenated (median.py lines 47-49). -/
def tokenize (args : List (List Char)) : List (List Char) :=
  args.flatMap fun token =>
    (splitAux [] (token.map fun c => if c = ',' then ' ' else c)).filter
      fun s => s ≠ []

/-- The comprehension `[float(x) for x in tokens]` (median.py line 53): the
first non-numeric token aborts the whole conversion. -/
def mapFloats (toFloat : List Char → Option ℚ) : List (List Char) → Option (List ℚ)
  | [] => some []
  | t :: ts =>
    match toFloat t with
    | none => none
    | some x =>
      match mapFloats toFloat ts with
      | none => none
      | some xs => some (x :: xs)

/-- `parse_numbers` (median.py lines 46-55), with Python `float` abstracted as
`toFloat`. -/
def parse_numbers (toFloat : List Char → Option ℚ) (args : List (List Char)) :
    Except String (List ℚ) :=
  let tokens := tokenize args
  if tokens = [] then
    Except.error "No numbers provided"
  else
    match mapFloats toFloat tokens with
    | some xs => Except.ok xs
    | none => Except.error "All inputs must be numeric"

/-- Python `str.strip()`: drop whitespace from both ends. -/
def strip (cs : List Char) : List Char :=
  ((cs.dropWhile Char.isWhitespace).reverse.dropWhile Char.isWhitespace).reverse

/-- The `Favourites` class of weather_cli.py (lines 127-150): a capacity and
the in-memory list of city names. -/
structure Favourites where
  capacity : Nat
  items : List (List Char)
deriving DecidableEq

/-- `Favourites.__init__` (weather_cli.py lines 128-130). -/
def Favourites.init (capacity : Nat) : Favourites :=
  ⟨capacity, []⟩

/-- `Favourites.add` (weather_cli.py lines 135-143): strip the name, reject
empty names, duplicates, and a full list; otherwise append. -/
def Favourites.add (f : Favourites) (city : List Char) : Except String Favourites :=
  let city_norm := strip city
  if city_norm = [] then
    Except.error "City name cannot be empty"
  else if city_norm ∈ f.items then
    Except.error ("Already in favourites: " ++ city_norm.asString)
  else if f.items.length ≥ f.capacity then
    Except.error ("Favourites is full (max " ++ toString f.capacity ++ "). Remove one first.")
  else
    Except.ok ⟨f.capacity, f.items ++ [city_norm]⟩

/-- `Favourites.remove` (weather_cli.py lines 145-150): `list.remove` deletes
the first occurrence and raises when the city is absent. -/
def Favourites.remove (f : Favourites) (city : List Char) : Except String Favourites :=
  let city_norm := strip city
  if city_norm ∈ f.items then
    Except.ok ⟨f.capacity, f.items.erase city_norm⟩
  else
    Except.error ("Not in favourites: " ++ city_norm.asString)

/-- An interaction step against a `Favourites` object. -/
inductive FavOp where
  | add (city : List Char)
  | remove (city : List Char)

/-- Run one operation; a raised `ValueError` leaves the object untouched
(`add` and `remove` mutate only after all checks pass). -/
def runOp (f : Favourites) (op : FavOp) : Favourites :=
  match op with
  | .add c =>
    match f.add c with
    | .ok f2 => f2
    | .error _ => f
  | .remove c =>
    match f.remove c with
    | .ok f2 => f2
    | .error _ => f

/-- Insertion of `a` into `l` before the first element strictly greater than
`a`: the functional description of where the shifting loop of median.py lines
24-27 places its key inside the already sorted part. -/
def insLt (a : ℚ) (l : List ℚ) : List ℚ :=
  List.orderedInsert (· < ·) a l

/-- State of the inner while loop with the Python index `j : Int` kept as is. -/
def innerGuard (key : ℚ) (s : List ℚ × Int) : Bool :=
  decide (0 ≤ s.2) && decide (s.1.getD s.2.toNat 0 > key)

/-- The loop body `numbers[j + 1] = numbers[j]; j -= 1` (median.py 25-26). -/
def innerStep (s : List ℚ × Int) : List ℚ × Int :=
  (s.1.set (s.2.toNat + 1) (s.1.getD s.2.toNat 0), s.2 - 1)

/-- Fuelled small-step execution of the inner while loop. -/
def runInner (key : ℚ) : Nat → List ℚ × Int → List ℚ × Int
  | 0, s => s
  | fuel + 1, s => if innerGuard key s then runInner key fuel (innerStep s) else s

/-- `sortAux` instrumented with the number of outer iterations performed. -/
def sortAuxT (numbers : List ℚ) (i : Nat) : Nat → List ℚ × Nat
  | 0 => (numbers, 0)
  | fuel + 1 =>
    let r := sortAuxT (insertStep numbers i) (i + 1) fuel
    (r.1, r.2 + 1)

/-! ### Lemmas about `insLt` -/

theorem insLt_nil (a : ℚ) : insLt a [] = [a] :=
  rfl

theorem insLt_cons (a b : ℚ) (l : List ℚ) :
    insLt a (b :: l) = if a < b then a :: b :: l else b :: insLt a l :=
  rfl

theorem insLt_perm (a : ℚ) (l : List ℚ) : List.Perm (insLt a l) (a :: l) :=
  List.perm_orderedInsert _ a l

theorem insLt_append_big (a b : ℚ) (h : a < b) :
    ∀ l : List ℚ, insLt a (l ++ [b]) = insLt a l ++ [b] := by
  intro l
  induction l with
  | nil => simp [insLt_nil, insLt_cons, h]
  | cons c t ih =>
    by_cases hac : a < c
    · simp [insLt_cons, hac]
    · simp [insLt_cons, hac, ih]

theorem insLt_all_le (a : ℚ) :
    ∀ l : List ℚ, (∀ x ∈ l, x ≤ a) → insLt a l = l ++ [a] := by
  intro l
  induction l with
  | nil => intro _; simp [insLt_nil]
  | cons c t ih =>
    intro h
    have hca : ¬ a < c := not_lt.mpr (h c (by simp))
    rw [insLt_cons, if_neg hca, ih fun x hx => h x (by simp [hx])]
    simp

theorem insLt_sorted (a : ℚ) :
    ∀ l : List ℚ, l.Sorted (· ≤ ·) → (insLt a l).Sorted (· ≤ ·) := by
  intro l
  induction l with
  | nil => intro _; simp [insLt_nil]
  | cons c t ih =>
    intro h
    rw [List.sorted_cons] at h
    by_cases hac : a < c
    · rw [insLt_cons, if_pos hac, List.sorted_cons]
      refine ⟨?_, ?_⟩
      · intro x hx
        rcases List.mem_cons.mp hx with rfl | hx2
        · exact le_of_lt hac
        · exact le_trans (le_of_lt hac) (h.1 x hx2)
      · rw [List.sorted_cons]
        exact h
    · rw [insLt_cons, if_neg hac, List.sorted_cons]
      refine ⟨?_, ih h.2⟩
      intro x hx
      have hmem : x = a ∨ x ∈ t := by
        simpa using (insLt_perm a t).mem_iff.mp hx
      rcases hmem with rfl | hx2
      · exact not_lt.mp hac
      · exact h.1 x hx2

/-! ### Characterisation of the shifting loop -/

theorem take_succ_getD (l : List ℚ) (k : Nat) (h : k < l.length) :
    l.take (k + 1) = l.take k ++ [l.getD k 0] := by
  rw [List.take_succ, List.getElem?_eq_getElem h, List.getD_eq_getElem _ _ h]
  simp

theorem mem_take_le_getD (P : List ℚ) (k : Nat) (hk : k < P.length)
    (hs : P.Sorted (· ≤ ·)) :
    ∀ x ∈ P.take (k + 1), x ≤ P.getD k 0 := by
  intro x hx
  have hsort : (P.take (k + 1)).Pairwise (· ≤ ·) :=
    List.Pairwise.sublist (List.take_sublist _ _) hs
  rw [take_succ_getD P k hk] at hx hsort
  rw [List.pairwise_append] at hsort
  rcases List.mem_append.mp hx with hx1 | hx2
  · exact hsort.2.2 x hx1 _ (by simp)
  · simp only [List.mem_singleton] at hx2
    exact le_of_eq hx2

/-- Running the shifting loop from counter `c` (Python `j = c - 1`) on a state
whose first `c` cells hold the sorted values `P.take c`, then writing the key
into the returned gap, inserts the key into `P.take c` and overwrites the cell
just past it. -/
theorem shiftLoop_set_spec (key : ℚ) (P : List ℚ) (hs : P.Sorted (· ≤ ·)) :
    ∀ (c : Nat) (V : List ℚ), c ≤ P.length → V ≠ [] →
      (∀ m, c ≤ m → m < P.length → key < P.getD m 0) →
      (shiftLoop (P.take c ++ V) key c).1.set (shiftLoop (P.take c ++ V) key c).2 key =
        insLt key (P.take c) ++ V.tail := by
  intro c
  induction c with
  | zero =>
    intro V _ hV _
    obtain ⟨v, vs, rfl⟩ := List.exists_cons_of_ne_nil hV
    simp [shiftLoop, insLt_nil]
  | succ k ih =>
    intro V hc hV hbig
    have hk : k < P.length := hc
    obtain ⟨v, vs, rfl⟩ := List.exists_cons_of_ne_nil hV
    have htake : P.take (k + 1) = P.take k ++ [P.getD k 0] := take_succ_getD P k hk
    have hlk : (P.take k).length = k := by
      simp only [List.length_take]
      omega
    have hlen_take : (P.take (k + 1)).length = k + 1 := by
      simp only [List.length_take]
      omega
    have hget : (P.take (k + 1) ++ v :: vs).getD k 0 = P.getD k 0 := by
      rw [htake, List.append_assoc, List.getD_append_right _ _ _ _ (le_of_eq hlk), hlk]
      simp
    simp only [shiftLoop, hget, gt_iff_lt]
    by_cases hguard : key < P.getD k 0
    · rw [if_pos hguard]
      have hset : (P.take (k + 1) ++ v :: vs).set (k + 1) (P.getD k 0) =
          P.take k ++ (P.getD k 0 :: P.getD k 0 :: vs) := by
        rw [List.set_append, if_neg (by omega), hlen_take, htake, List.append_assoc]
        simp
      rw [hset, ih (P.getD k 0 :: P.getD k 0 :: vs) (le_of_lt hk) (by simp)
        (fun m hm1 hm2 => by
          rcases Nat.eq_or_lt_of_le hm1 with rfl | hlt
          · exact hguard
          · exact hbig m hlt hm2)]
      rw [htake, insLt_append_big key (P.getD k 0) hguard, List.append_assoc]
      simp
    · rw [if_neg hguard]
      have hall : ∀ x ∈ P.take (k + 1), x ≤ key := fun x hx =>
        le_trans (mem_take_le_getD P k hk hs x hx) (not_lt.mp hguard)
      rw [List.set_append, if_neg (by omega), hlen_take]
      simp only [Nat.sub_self, List.set_cons_zero, List.tail_cons]
      rw [insLt_all_le key _ hall, List.append_assoc]
      simp

/-- Decomposition of a list around position `i`. -/
theorem cons_decomp (ns : List ℚ) (i : Nat) (hi : i < ns.length) :
    ns = ns.take i ++ (ns.getD i 0 :: ns.drop (i + 1)) := by
  conv_lhs => rw [← List.take_append_drop i ns]
  rw [List.drop_eq_getElem_cons hi, List.getD_eq_getElem _ _ hi]

/-- One outer iteration inserts `numbers[i]` into the sorted first `i` cells. -/
theorem insertStep_eq (ns : List ℚ) (i : Nat) (hi : i < ns.length)
    (hs : (ns.take i).Sorted (· ≤ ·)) :
    insertStep ns i = insLt (ns.getD i 0) (ns.take i) ++ ns.drop (i + 1) := by
  have hlen : (ns.take i).length = i := by
    simp only [List.length_take]
    omega
  have hspec := shiftLoop_set_spec (ns.getD i 0) (ns.take i) hs i
      (ns.getD i 0 :: ns.drop (i + 1)) (le_of_eq hlen.symm) (by simp)
      (fun m hm1 hm2 => by
        rw [hlen] at hm2
        exact absurd hm1 (by omega))
  rw [List.take_take, min_self, List.tail_cons, ← cons_decomp ns i hi] at hspec
  simpa only [insertStep] using hspec

/-! ### The outer loop: sortedness and permutation -/

theorem insertStep_perm (ns : List ℚ) (i : Nat) (hi : i < ns.length)
    (hs : (ns.take i).Sorted (· ≤ ·)) :
    List.Perm (insertStep ns i) ns := by
  rw [insertStep_eq ns i hi hs]
  calc
    List.Perm (insLt (ns.getD i 0) (ns.take i) ++ ns.drop (i + 1))
        ((ns.getD i 0 :: ns.take i) ++ ns.drop (i + 1)) :=
      (insLt_perm _ _).append_right _
    _ = ns.getD i 0 :: (ns.take i ++ ns.drop (i + 1)) := by simp
    List.Perm _ (ns.take i ++ ns.getD i 0 :: ns.drop (i + 1)) := List.perm_middle.symm
    _ = ns := (cons_decomp ns i hi).symm

theorem sortAux_sorted_perm :
    ∀ (fuel : Nat) (ns : List ℚ) (i : Nat), 0 < i → i + fuel = ns.length →
      (ns.take i).Sorted (· ≤ ·) →
      (sortAux ns i fuel).Sorted (· ≤ ·) ∧ List.Perm (sortAux ns i fuel) ns := by
  intro fuel
  induction fuel with
  | zero =>
    intro ns i _ hlen hs
    have hall : ns.take i = ns := List.take_of_length_le (by omega)
    rw [hall] at hs
    exact ⟨hs, List.Perm.refl ns⟩
  | succ fuel ih =>
    intro ns i hi hlen hs
    have hilt : i < ns.length := by omega
    have hperm : List.Perm (insertStep ns i) ns := insertStep_perm ns i hilt hs
    have hlen2 : (insertStep ns i).length = ns.length := hperm.length_eq
    have hkey_len : (insLt (ns.getD i 0) (ns.take i)).length = i + 1 := by
      rw [(insLt_perm _ _).length_eq]
      simp only [List.length_cons, List.length_take]
      omega
    have hsort2 : ((insertStep ns i).take (i + 1)).Sorted (· ≤ ·) := by
      rw [insertStep_eq ns i hilt hs, List.take_left' hkey_len]
      exact insLt_sorted _ _ hs
    obtain ⟨s1, p1⟩ := ih (insertStep ns i) (i + 1) (by omega) (by omega) hsort2
    exact ⟨s1, p1.trans hperm⟩

theorem insertion_sort_sorted_perm (ns : List ℚ) :
    (insertion_sort ns).Sorted (· ≤ ·) ∧ List.Perm (insertion_sort ns) ns := by
  cases ns with
  | nil => exact ⟨List.sorted_nil, List.Perm.refl _⟩
  | cons a t =>
    refine sortAux_sorted_perm (a :: t).length.pred (a :: t) 1 one_pos ?_ ?_
    · simp only [List.length_cons, Nat.pred_succ]
      omega
    · simp

theorem insertion_sort_sorted (ns : List ℚ) :
    (insertion_sort ns).Sorted (· ≤ ·) :=
  (insertion_sort_sorted_perm ns).1

theorem insertion_sort_perm (ns : List ℚ) :
    List.Perm (insertion_sort ns) ns :=
  (insertion_sort_sorted_perm ns).2

theorem insertion_sort_length (ns : List ℚ) :
    (insertion_sort ns).length = ns.length :=
  (insertion_sort_perm ns).length_eq

theorem insertion_sort_of_sorted (ns : List ℚ) (hs : ns.Sorted (· ≤ ·)) :
    insertion_sort ns = ns :=
  List.eq_of_perm_of_sorted (insertion_sort_perm ns) (insertion_sort_sorted ns) hs

theorem insertion_sort_idem (ns : List ℚ) :
    insertion_sort (insertion_sort ns) = insertion_sort ns :=
  insertion_sort_of_sorted _ (insertion_sort_sorted ns)

/-! ### The median selector over the store -/

theorem read_alloc_same (σ : Store) (v : List ℚ) :
    (σ.alloc v).1.read (σ.alloc v).2 = v := by
  simp only [Store.alloc, Store.read]
  rw [List.getD_append_right _ _ _ _ le_rfl]
  simp

theorem set_append_singleton (l : List (List ℚ)) (v w : List ℚ) :
    (l ++ [v]).set l.length w = l ++ [w] := by
  rw [List.set_append, if_neg (lt_irrefl _)]
  simp

theorem read_lt_of_ne_nil (σ : Store) (r : Nat) (h : σ.read r ≠ []) :
    r < σ.lists.length := by
  by_contra hge
  apply h
  simp only [Store.read]
  exact List.getD_eq_default _ _ (le_of_not_lt hge)

/-- Evaluation of the store-level selector: the returned value agrees with the
pure selector on the dereferenced input, and the final store is either
untouched (empty input) or the original store extended with one sorted copy. -/
theorem medianRef_eq (σ : Store) (r : Nat) :
    (sortAndFindMedianRef σ r).1 = sortAndFindMedian (σ.read r) ∧
    (sortAndFindMedianRef σ r).2 =
      if (σ.read r).isEmpty then σ else ⟨σ.lists ++ [insertion_sort (σ.read r)]⟩ := by
  by_cases h : (σ.read r).isEmpty
  · simp [sortAndFindMedianRef, sortAndFindMedian, h]
  · have halloc : (σ.alloc (σ.read r)).1.read (σ.alloc (σ.read r)).2 = σ.read r :=
      read_alloc_same σ (σ.read r)
    have hsorted : sortRef (σ.alloc (σ.read r)).1 (σ.alloc (σ.read r)).2 =
        ⟨σ.lists ++ [insertion_sort (σ.read r)]⟩ := by
      rw [sortRef, halloc]
      simp only [Store.alloc, Store.write]
      rw [set_append_singleton]
    have hread2 : (Store.mk (σ.lists ++ [insertion_sort (σ.read r)])).read
        (σ.alloc (σ.read r)).2 = insertion_sort (σ.read r) := by
      simp only [Store.read, Store.alloc]
      rw [List.getD_append_right _ _ _ _ le_rfl]
      simp
    simp only [sortAndFindMedianRef, sortAndFindMedian, h, if_neg, Bool.false_eq_true,
      ite_false, hsorted, hread2, sort]
    refine ⟨?_, ?_⟩ <;> split <;> rfl

theorem medianRef_read_preserved (σ : Store) (r : Nat) :
    (sortAndFindMedianRef σ r).2.read r = σ.read r := by
  rw [(medianRef_eq σ r).2]
  by_cases h : (σ.read r).isEmpty
  · simp [h]
  · have hne : σ.read r ≠ [] := fun hnil => h (by simp [hnil])
    have hr : r < σ.lists.length := read_lt_of_ne_nil σ r hne
    rw [if_neg h]
    show (σ.lists ++ [insertion_sort (σ.read r)]).getD r [] = σ.read r
    rw [List.getD_append _ _ _ _ hr]
    rfl

/-! ### Evaluating the pure selector -/

theorem sortAndFindMedian_spec (ns : List ℚ) (h : ns ≠ []) :
    sortAndFindMedian ns =
      Except.ok (if ns.length % 2 = 0 then
        ((sort ns).getD (ns.length / 2 - 1) 0 + (sort ns).getD (ns.length / 2) 0) / 2
      else (sort ns).getD (ns.length / 2) 0) := by
  have hlen : (sort ns).length = ns.length := insertion_sort_length ns
  simp only [sortAndFindMedian, List.isEmpty_iff, h, ite_false, hlen]
  split <;> simp

theorem sortAndFindMedian_ok (ns : List ℚ) (h : ns ≠ []) :
    ∃ q, sortAndFindMedian ns = Except.ok q := by
  rw [sortAndFindMedian_spec ns h]
  exact ⟨_, rfl⟩

/-! ### The parsing layer -/

theorem mapFloats_eq_none_iff (toFloat : List Char → Option ℚ) :
    ∀ ts : List (List Char), mapFloats toFloat ts = none ↔ ∃ t ∈ ts, toFloat t = none := by
  intro ts
  induction ts with
  | nil => simp [mapFloats]
  | cons t ts ih =>
    cases hft : toFloat t with
    | none => simp [mapFloats, hft]
    | some x =>
      cases hmf : mapFloats toFloat ts with
      | none =>
        simp only [mapFloats, hft, hmf, true_iff, List.mem_cons]
        obtain ⟨u, hu, hnone⟩ := (ih).mp hmf
        exact ⟨u, Or.inr hu, hnone⟩
      | some xs =>
        simp only [mapFloats, hft, hmf]
        constructor
        · intro hc
          exact absurd hc (by simp)
        · rintro ⟨u, hu, hnone⟩
          rcases List.mem_cons.mp hu with rfl | hu2
          · exact absurd hft (by simp [hnone])
          · exact absurd hmf (by simp [(ih).mpr ⟨u, hu2, hnone⟩])

theorem mapFloats_eq_some_iff (toFloat : List Char → Option ℚ) :
    ∀ (ts : List (List Char)) (xs : List ℚ), mapFloats toFloat ts = some xs ↔
      List.Forall₂ (fun t x => toFloat t = some x) ts xs := by
  intro ts
  induction ts with
  | nil =>
    intro xs
    constructor
    · intro hx
      simp only [mapFloats, Option.some.injEq] at hx
      rw [← hx]
      exact List.Forall₂.nil
    · intro hx
      cases hx
      rfl
  | cons t ts ih =>
    intro xs
    constructor
    · intro hx
      cases hft : toFloat t with
      | none => rw [mapFloats, hft] at hx; exact absurd hx (by simp)
      | some a =>
        cases hmf : mapFloats toFloat ts with
        | none => rw [mapFloats, hft, hmf] at hx; exact absurd hx (by simp)
        | some ys =>
          rw [mapFloats, hft, hmf] at hx
          simp only [Option.some.injEq] at hx
          rw [← hx]
          exact List.Forall₂.cons hft ((ih ys).mp hmf)
    · intro hx
      cases hx with
      | cons hft htail =>
        rw [mapFloats, hft, (ih _).mpr htail]

/-! ### Favourites invariants -/

theorem runOp_capacity (f : Favourites) (op : FavOp) :
    (runOp f op).capacity = f.capacity := by
  cases op with
  | add c =>
    simp only [runOp, Favourites.add]
    split_ifs <;> rfl
  | remove c =>
    simp only [runOp, Favourites.remove]
    split_ifs <;> rfl

theorem runOp_length_le (f : Favourites) (op : FavOp)
    (h : f.items.length ≤ f.capacity) :
    (runOp f op).items.length ≤ f.capacity := by
  cases op with
  | add c =>
    simp only [runOp, Favourites.add]
    by_cases h1 : strip c = []
    · rw [if_pos h1]
      exact h
    · rw [if_neg h1]
      by_cases h2 : strip c ∈ f.items
      · rw [if_pos h2]
        exact h
      · rw [if_neg h2]
        by_cases h3 : f.items.length ≥ f.capacity
        · rw [if_pos h3]
          exact h
        · rw [if_neg h3]
          show (f.items ++ [strip c]).length ≤ f.capacity
          simp only [List.length_append, List.length_singleton]
          omega
  | remove c =>
    simp only [runOp, Favourites.remove]
    by_cases h1 : strip c ∈ f.items
    · rw [if_pos h1]
      exact le_trans (List.Sublist.length_le (List.erase_sublist _ _)) h
    · rw [if_neg h1]
      exact h

theorem foldl_runOp_inv :
    ∀ (ops : List FavOp) (f : Favourites), f.items.length ≤ f.capacity →
      (ops.foldl runOp f).capacity = f.capacity ∧
      (ops.foldl runOp f).items.length ≤ f.capacity := by
  intro ops
  induction ops with
  | nil => intro f h; exact ⟨rfl, h⟩
  | cons op ops ih =>
    intro f h
    have h1 := runOp_capacity f op
    have h2 := runOp_length_le f op h
    obtain ⟨hc, hl⟩ := ih (runOp f op) (by omega)
    rw [List.foldl_cons]
    omega

theorem add_full_fails (f : Favourites) (city : List Char)
    (h : f.capacity ≤ f.items.length) :
    (f.add city).isOk = false ∧ runOp f (.add city) = f := by
  simp only [Favourites.add, runOp]
  by_cases h1 : strip city = []
  · rw [if_pos h1]
    exact ⟨rfl, rfl⟩
  · rw [if_neg h1]
    by_cases h2 : strip city ∈ f.items
    · rw [if_pos h2]
      exact ⟨rfl, rfl⟩
    · rw [if_neg h2, if_pos (show f.items.length ≥ f.capacity from h)]
      exact ⟨rfl, rfl⟩

/-! ### The while-loop semantics of the inner loop -/

theorem runInner_eq_shiftLoop (key : ℚ) :
    ∀ (c : Nat) (numbers : List ℚ) (fuel : Nat), c ≤ fuel →
      runInner key fuel (numbers, (c : Int) - 1) =
        ((shiftLoop numbers key c).1, ((shiftLoop numbers key c).2 : Int) - 1) := by
  intro c
  induction c with
  | zero =>
    intro numbers fuel _
    have hguard : innerGuard key (numbers, -1) = false := by
      simp only [innerGuard]
      rw [decide_eq_false (by norm_num)]
      rfl
    cases fuel <;> simp [runInner, hguard, shiftLoop]
  | succ k ih =>
    intro numbers fuel hc
    cases fuel with
    | zero => omega
    | succ f =>
      have hj : ((k + 1 : Nat) : Int) - 1 = (k : Int) := by push_cast; ring
      have htn : ((k + 1 : Nat) : Int) - 1 = ((k : Nat) : Int) := hj
      by_cases hg : numbers.getD k 0 > key
      · have hguard : innerGuard key (numbers, ((k + 1 : Nat) : Int) - 1) = true := by
          simp only [innerGuard, hj, Int.toNat_natCast]
          rw [decide_eq_true (Int.natCast_nonneg k), decide_eq_true hg]
          rfl
        have hstep : innerStep (numbers, ((k + 1 : Nat) : Int) - 1) =
            (numbers.set (k + 1) (numbers.getD k 0), (k : Int) - 1) := by
          simp only [innerStep, hj, Int.toNat_natCast]
        rw [runInner, if_pos hguard, hstep, ih _ f (by omega)]
        rw [shiftLoop, if_pos hg]
      · have hguard : innerGuard key (numbers, ((k + 1 : Nat) : Int) - 1) = false := by
          simp only [innerGuard, hj, Int.toNat_natCast]
          rw [decide_eq_false hg]
          exact Bool.and_false _
        rw [runInner, if_neg (by rw [hguard]; simp), shiftLoop, if_neg hg, hj]

theorem shiftLoop_post (key : ℚ) :
    ∀ (c : Nat) (numbers : List ℚ), (shiftLoop numbers key c).2 = 0 ∨
      ¬ (shiftLoop numbers key c).1.getD ((shiftLoop numbers key c).2 - 1) 0 > key := by
  intro c
  induction c with
  | zero => intro numbers; exact Or.inl rfl
  | succ k ih =>
    intro numbers
    by_cases hg : numbers.getD k 0 > key
    · rw [shiftLoop, if_pos hg]
      exact ih _
    · rw [shiftLoop, if_neg hg]
      exact Or.inr (by simpa using hg)

/-- Fuel `c` (the initial `j + 1`) already takes the inner loop to its exit
state: any further fuel changes nothing. -/
theorem runInner_stabilizes (numbers : List ℚ) (key : ℚ) (c fuel : Nat) (h : c ≤ fuel) :
    runInner key fuel (numbers, (c : Int) - 1) = runInner key c (numbers, (c : Int) - 1) := by
  rw [runInner_eq_shiftLoop key c numbers fuel h, runInner_eq_shiftLoop key c numbers c le_rfl]

/-- After at most `c` iterations the guard `j >= 0 and numbers[j] > key` is
false: the loop has terminated. -/
theorem runInner_guard_false (numbers : List ℚ) (key : ℚ) (c : Nat) :
    innerGuard key (runInner key c (numbers, (c : Int) - 1)) = false := by
  rw [runInner_eq_shiftLoop key c numbers c le_rfl]
  rcases hpos : (shiftLoop numbers key c).2 with _ | m
  · simp only [innerGuard, Nat.cast_zero, zero_sub]
    rw [decide_eq_false (by norm_num)]
    rfl
  · have hstop := (shiftLoop_post key c numbers).resolve_left (by rw [hpos]; omega)
    rw [hpos] at hstop
    simp only [innerGuard]
    have ht : (((m + 1 : Nat) : Int) - 1).toNat = m := by omega
    rw [ht, decide_eq_false
      (show ¬ (shiftLoop numbers key c).1.getD m 0 > key by simpa using hstop)]
    exact Bool.and_false _

theorem sortAuxT_spec :
    ∀ (fuel : Nat) (numbers : List ℚ) (i : Nat),
      (sortAuxT numbers i fuel).2 = fuel ∧
      (sortAuxT numbers i fuel).1 = sortAux numbers i fuel := by
  intro fuel
  induction fuel with
  | zero => intro numbers i; exact ⟨rfl, rfl⟩
  | succ fuel ih =>
    intro numbers i
    obtain ⟨h1, h2⟩ := ih (insertStep numbers i) (i + 1)
    exact ⟨by simp [sortAuxT, h1], by simp [sortAuxT, sortAux, h2]⟩

theorem sorted_getD_adjacent (l : List ℚ) (hs : l.Sorted (· ≤ ·)) (i : Nat)
    (h : i + 1 < l.length) : l.getD i 0 ≤ l.getD (i + 1) 0 := by
  rw [List.getD_eq_get _ _ (by omega), List.getD_eq_get _ _ h]
  exact List.Sorted.rel_get_of_lt hs (Fin.mk_lt_mk.mpr (by omega))

/-! ### The claims -/

/-- C1: after the in-place sort, the list is a permutation of the original
(same multiset of values, same length) and non-decreasing: every adjacent pair
satisfies `element[i] <= element[i+1]`. -/
theorem sort_perm_sorted_adjacent (S : List ℚ) :
    List.Perm (sort S) S ∧ (sort S).length = S.length ∧
      ∀ i : Nat, i + 1 < (sort S).length →
        (sort S).getD i 0 ≤ (sort S).getD (i + 1) 0 :=
  ⟨insertion_sort_perm S, insertion_sort_length S,
   fun i hi => sorted_getD_adjacent (sort S) (insertion_sort_sorted S) i hi⟩

theorem sort_perm_sorted_adjacent_witness :
    List.Perm (sort [3, 1, 2]) [3, 1, 2] ∧ (sort [3, 1, 2]).length = [(3 : ℚ), 1, 2].length ∧
      (sort [3, 1, 2]).getD 0 0 ≤ (sort [3, 1, 2]).getD 1 0 :=
  ⟨(sort_perm_sorted_adjacent [3, 1, 2]).1, (sort_perm_sorted_adjacent [3, 1, 2]).2.1,
   (sort_perm_sorted_adjacent [3, 1, 2]).2.2 0 (by decide)⟩

/-- C2: on non-empty input of length `n` the selector returns the element at
index `⌊n/2⌋` of the sorted copy when `n` is odd, and the mean
`(a + b) / 2` of the elements at indices `n/2 - 1` and `n/2` when `n` is
even. -/
theorem sortAndFindMedian_eq_sorted_middle (ns : List ℚ) (h : ns ≠ []) :
    sortAndFindMedian ns =
      Except.ok (if ns.length % 2 = 0 then
        ((sort ns).getD (ns.length / 2 - 1) 0 + (sort ns).getD (ns.length / 2) 0) / 2
      else (sort ns).getD (ns.length / 2) 0) :=
  sortAndFindMedian_spec ns h

theorem sortAndFindMedian_eq_sorted_middle_witness :
    sortAndFindMedian [1, 2] =
      Except.ok (if [(1 : ℚ), 2].length % 2 = 0 then
        ((sort [1, 2]).getD ([(1 : ℚ), 2].length / 2 - 1) 0 +
          (sort [1, 2]).getD ([(1 : ℚ), 2].length / 2) 0) / 2
      else (sort [1, 2]).getD ([(1 : ℚ), 2].length / 2) 0) :=
  sortAndFindMedian_eq_sorted_middle [1, 2] (by decide)

/-- C3: the selector fails exactly on empty input, with the single
empty-input error, and that check precedes any sorting (the store is returned
untouched); the raw sort of an empty list is a defined no-op. -/
theorem median_error_iff_empty (ns : List ℚ) (σ : Store) (r : Nat) (e : String) :
    (ns = [] → sortAndFindMedian ns = Except.error "Input list is empty") ∧
    (ns ≠ [] → ∃ q, sortAndFindMedian ns = Except.ok q) ∧
    (sortAndFindMedian ns = Except.error e → e = "Input list is empty") ∧
    (σ.read r = [] → sortAndFindMedianRef σ r = (Except.error "Input list is empty", σ)) ∧
    insertion_sort ([] : List ℚ) = [] := by
  refine ⟨?_, sortAndFindMedian_ok ns, ?_, ?_, rfl⟩
  · rintro rfl
    rfl
  · intro hmsg
    by_cases hne : ns = []
    · subst hne
      simpa [sortAndFindMedian] using hmsg.symm
    · obtain ⟨q, hq⟩ := sortAndFindMedian_ok ns hne
      rw [hq] at hmsg
      exact absurd hmsg (by simp)
  · intro hread
    simp [sortAndFindMedianRef, hread]

theorem median_error_iff_empty_witness :
    sortAndFindMedian ([] : List ℚ) = Except.error "Input list is empty" ∧
    (∃ q, sortAndFindMedian [(1 : ℚ)] = Except.ok q) ∧
    ("Input list is empty" : String) = "Input list is empty" ∧
    sortAndFindMedianRef ⟨[[]]⟩ 0 = (Except.error "Input list is empty", ⟨[[]]⟩) :=
  ⟨(median_error_iff_empty [] ⟨[[]]⟩ 0 "Input list is empty").1 rfl,
   (median_error_iff_empty [(1 : ℚ)] ⟨[[]]⟩ 0 "Input list is empty").2.1 (by decide),
   (median_error_iff_empty [] ⟨[[]]⟩ 0 "Input list is empty").2.2.1 rfl,
   (median_error_iff_empty [] ⟨[[]]⟩ 0 "Input list is empty").2.2.2.1 rfl⟩

/-- C4: the selector works on an internal copy: after the call the caller's
list object holds exactly the value it held before. -/
theorem median_preserves_caller (σ : Store) (r : Nat) (h : σ.read r ≠ []) :
    (sortAndFindMedianRef σ r).2.read r = σ.read r :=
  medianRef_read_preserved σ r

theorem median_preserves_caller_witness :
    (Store.mk [[2, 1]]).read 0 ≠ [] ∧
      (sortAndFindMedianRef ⟨[[2, 1]]⟩ 0).2.read 0 = (Store.mk [[2, 1]]).read 0 :=
  ⟨by decide, median_preserves_caller ⟨[[2, 1]]⟩ 0 (by decide)⟩

/-- C5: sorting is idempotent: an already-sorted list is returned unchanged,
and sorting twice equals sorting once. -/
theorem sort_idempotent (l : List ℚ) :
    (l.Sorted (· ≤ ·) → sort l = l) ∧ sort (sort l) = sort l :=
  ⟨fun h => insertion_sort_of_sorted l h, insertion_sort_idem l⟩

theorem sort_idempotent_witness :
    sort [1, 2] = [1, 2] ∧ sort (sort [1, 2]) = sort [1, 2] :=
  ⟨(sort_idempotent [1, 2]).1 (by decide), (sort_idempotent [1, 2]).2⟩

/-- C6: computing the median twice in succession, with no intervening
mutation, yields the same value: the first call leaves the input object
unchanged, and the selector is a function of that object's value. -/
theorem median_deterministic (σ : Store) (r : Nat) (h : σ.read r ≠ []) :
    (sortAndFindMedianRef (sortAndFindMedianRef σ r).2 r).1 =
      (sortAndFindMedianRef σ r).1 := by
  rw [(medianRef_eq _ r).1, (medianRef_eq σ r).1, medianRef_read_preserved σ r]

theorem median_deterministic_witness :
    (Store.mk [[2, 1]]).read 0 ≠ [] ∧
      (sortAndFindMedianRef (sortAndFindMedianRef ⟨[[2, 1]]⟩ 0).2 0).1 =
        (sortAndFindMedianRef ⟨[[2, 1]]⟩ 0).1 :=
  ⟨by decide, median_deterministic ⟨[[2, 1]]⟩ 0 (by decide)⟩

/-- C7: the worked examples: median of `[3,1,4,1,5]` is `3` (sorted
`[1,1,3,4,5]`), median of `[3,1,4,1,5,9]` is `3.5` (sorted `[1,1,3,4,5,9]`),
median of `[2,2,2,2]` is `2.0` (sorted `[2,2,2,2]`). -/
theorem median_worked_examples :
    sort [3, 1, 4, 1, 5] = [1, 1, 3, 4, 5] ∧
    sortAndFindMedian [3, 1, 4, 1, 5] = Except.ok 3 ∧
    sort [3, 1, 4, 1, 5, 9] = [1, 1, 3, 4, 5, 9] ∧
    sortAndFindMedian [3, 1, 4, 1, 5, 9] = Except.ok (35 / 10) ∧
    sort [2, 2, 2, 2] = [2, 2, 2, 2] ∧
    sortAndFindMedian [2, 2, 2, 2] = Except.ok 2 := by
  have h1 : sort [3, 1, 4, 1, 5] = [1, 1, 3, 4, 5] := by decide
  have h2 : sort [3, 1, 4, 1, 5, 9] = [1, 1, 3, 4, 5, 9] := by decide
  have h3 : sort [2, 2, 2, 2] = [2, 2, 2, 2] := by decide
  refine ⟨h1, ?_, h2, ?_, h3, ?_⟩
  · norm_num [sortAndFindMedian, h1]
  · norm_num [sortAndFindMedian, h2]
  · norm_num [sortAndFindMedian, h3]

/-- C8: the parser splits its arguments on whitespace and commas, fails with
the no-input error exactly on an empty token list, fails with some error
exactly when the token list is empty or some token is non-numeric, and
succeeds exactly with the numbers parsed from the tokens in input order. -/
theorem parse_numbers_spec (toFloat : List Char → Option ℚ) (args : List (List Char)) :
    (parse_numbers toFloat args = Except.error "No numbers provided" ↔
      tokenize args = []) ∧
    ((∃ e, parse_numbers toFloat args = Except.error e) ↔
      tokenize args = [] ∨ ∃ t ∈ tokenize args, toFloat t = none) ∧
    (∀ xs, parse_numbers toFloat args = Except.ok xs ↔
      (tokenize args ≠ [] ∧
        List.Forall₂ (fun t x => toFloat t = some x) (tokenize args) xs)) := by
  by_cases htok : tokenize args = []
  · refine ⟨by simp [parse_numbers, htok], by simp [parse_numbers, htok], ?_⟩
    intro xs
    simp [parse_numbers, htok]
  · cases hm : mapFloats toFloat (tokenize args) with
    | none =>
      have herr : parse_numbers toFloat args = Except.error "All inputs must be numeric" := by
        simp [parse_numbers, htok, hm]
      refine ⟨?_, ?_, ?_⟩
      · rw [herr]
        constructor
        · intro hcontra
          exact absurd (by simpa using hcontra :
            ("All inputs must be numeric" : String) = "No numbers provided") (by decide)
        · intro hc
          exact absurd hc htok
      · rw [herr]
        constructor
        · intro _
          exact Or.inr ((mapFloats_eq_none_iff toFloat _).mp hm)
        · intro _
          exact ⟨_, rfl⟩
      · intro xs
        rw [herr]
        constructor
        · intro hcontra
          exact absurd hcontra (by simp)
        · rintro ⟨_, hforall⟩
          have hsome := (mapFloats_eq_some_iff toFloat _ xs).mpr hforall
          rw [hm] at hsome
          exact absurd hsome (by simp)
    | some ys =>
      have hok : parse_numbers toFloat args = Except.ok ys := by
        simp [parse_numbers, htok, hm]
      refine ⟨?_, ?_, ?_⟩
      · rw [hok]
        constructor
        · intro hcontra
          exact absurd hcontra (by simp)
        · intro hc
          exact absurd hc htok
      · rw [hok]
        constructor
        · rintro ⟨e, he⟩
          exact absurd he (by simp)
        · rintro (hc | ⟨t, ht, hnone⟩)
          · exact absurd hc htok
          · have hn := (mapFloats_eq_none_iff toFloat _).mpr ⟨t, ht, hnone⟩
            rw [hm] at hn
            exact absurd hn (by simp)
      · intro xs
        rw [hok]
        constructor
        · intro heq
          have hxs : ys = xs := by simpa using heq
          subst hxs
          exact ⟨htok, (mapFloats_eq_some_iff toFloat _ ys).mp hm⟩
        · rintro ⟨_, hforall⟩
          have hsome := (mapFloats_eq_some_iff toFloat _ xs).mpr hforall
          rw [hm] at hsome
          simpa using hsome

/-- C9: starting from an empty favourites list of capacity 3, any sequence of
add and remove operations keeps the length at most 3, and an `add` on a full
list fails with an error and leaves the object unchanged. -/
theorem favourites_bounded (ops : List FavOp) (f : Favourites) (city : List Char)
    (h : f.capacity ≤ f.items.length) :
    (ops.foldl runOp (Favourites.init 3)).items.length ≤ 3 ∧
    (f.add city).isOk = false ∧ runOp f (.add city) = f := by
  obtain ⟨hc, hl⟩ := foldl_runOp_inv ops (Favourites.init 3) (by simp [Favourites.init])
  exact ⟨hl, (add_full_fails f city h).1, (add_full_fails f city h).2⟩

theorem favourites_bounded_witness :
    (List.foldl runOp (Favourites.init 3)
      [FavOp.add ['a'], FavOp.add ['b'], FavOp.add ['c'], FavOp.add ['d']]).items.length ≤ 3 ∧
    (Favourites.add ⟨3, [['a'], ['b'], ['c']]⟩ ['d']).isOk = false ∧
    runOp ⟨3, [['a'], ['b'], ['c']]⟩ (.add ['d']) = ⟨3, [['a'], ['b'], ['c']]⟩ :=
  favourites_bounded [FavOp.add ['a'], FavOp.add ['b'], FavOp.add ['c'], FavOp.add ['d']]
    ⟨3, [['a'], ['b'], ['c']]⟩ ['d'] (by decide)

/-- C10: the inner shifting loop terminates: from `j = c - 1` it reaches a
state with a false guard within `c` iterations (extra fuel changes nothing),
each fired iteration decreases `j` by one, the outer loop performs exactly
`len - 1` iterations, and the sort is a total function returning a list of
the input's length. -/
theorem insertion_sort_terminates (numbers : List ℚ) (key : ℚ) (c fuel : Nat)
    (h : c ≤ fuel) :
    runInner key fuel (numbers, (c : Int) - 1) = runInner key c (numbers, (c : Int) - 1) ∧
    innerGuard key (runInner key c (numbers, (c : Int) - 1)) = false ∧
    (∀ s : List ℚ × Int, (innerStep s).2 = s.2 - 1) ∧
    (sortAuxT numbers 1 (numbers.length - 1)).2 = numbers.length - 1 ∧
    (sortAuxT numbers 1 (numbers.length - 1)).1 = insertion_sort numbers ∧
    (insertion_sort numbers).length = numbers.length :=
  ⟨runInner_stabilizes numbers key c fuel h, runInner_guard_false numbers key c,
   fun _ => rfl, (sortAuxT_spec _ numbers 1).1, (sortAuxT_spec _ numbers 1).2,
   insertion_sort_length numbers⟩

theorem insertion_sort_terminates_witness :
    runInner 5 3 ([3, 1, 2], ((2 : Nat) : Int) - 1) =
      runInner 5 2 ([3, 1, 2], ((2 : Nat) : Int) - 1) ∧
    innerGuard 5 (runInner 5 2 ([3, 1, 2], ((2 : Nat) : Int) - 1)) = false ∧
    (∀ s : List ℚ × Int, (innerStep s).2 = s.2 - 1) ∧
    (sortAuxT [3, 1, 2] 1 ([(3 : ℚ), 1, 2].length - 1)).2 = [(3 : ℚ), 1, 2].length - 1 ∧
    (sortAuxT [3, 1, 2] 1 ([(3 : ℚ), 1, 2].length - 1)).1 = insertion_sort [3, 1, 2] ∧
    (insertion_sort [3, 1, 2]).length = [(3 : ℚ), 1, 2].length :=
  insertion_sort_terminates [3, 1, 2] 5 2 3 (by decide)

end Comcast
